import Mathlib

/-!
Verification development for the `obsidian-publisher` content
transformation engine (`obsidian_publisher/core/processor.py`,
`obsidian_publisher/core/models.py`,
`obsidian_publisher/transforms/frontmatter.py`).

Python strings are modelled as `List Char`.  External collaborators
(`inflection.parameterize`, `titlecase.titlecase`) are modelled as
abstract function parameters, mirroring the design's "Identifier
Normalizer is an injected pure function".  `yaml.dump` is modelled for
the mapping shapes the code produces (string scalars and string lists)
with sorted keys, matching `sort_keys=True`.
-/

namespace ObsidianPub

/-- Python strings are modelled as lists of characters. -/
abbrev Str := List Char

/-- Coerce a Lean string literal to the model type. -/
def str (s : String) : Str := s.data

/-- ASCII lower-casing of one character, modelling `str.lower()` on the
character sets the processor handles. -/
def lowerChar (c : Char) : Char :=
  if 'A' ≤ c ∧ c ≤ 'Z' then Char.ofNat (c.toNat + 32) else c

/-- Modelling Python `str.lower()`. -/
def lowerStr (s : Str) : Str := s.map lowerChar

/-- Python whitespace characters recognised by `str.strip()`. -/
def isPySpace (c : Char) : Bool :=
  c = ' ' ∨ c = '\t' ∨ c = '\n' ∨ c = '\r' ∨ c = '\x0b' ∨ c = '\x0c'

/-- Modelling Python `str.strip()`. -/
def pyStrip (s : Str) : Str :=
  ((s.dropWhile isPySpace).reverse.dropWhile isPySpace).reverse

/-- Modelling Python `str.rstrip('\n')`. -/
def rstripNl (s : Str) : Str :=
  (s.reverse.dropWhile (fun c => c = '\n')).reverse

/-- Modelling Python `str.rstrip('/')` (used on `image_path_prefix` in
`ContentProcessor.__init__`). -/
def rstripSlash (s : Str) : Str :=
  (s.reverse.dropWhile (fun c => c = '/')).reverse

/-- Python truthiness of `display or fallback` for an optional string:
`None` and the empty string are falsy. -/
def pyOrS (d : Option Str) (fallback : Str) : Str :=
  match d with
  | some x => if x = [] then fallback else x
  | none => fallback

/-- `pathlib.PurePath.name`: the component after the last `/`. -/
def pathName (s : Str) : Str :=
  (s.reverse.takeWhile (fun c => c ≠ '/')).reverse

/-- Index of the last `.` in a name, as in CPython `str.rfind('.')`. -/
def rfindDot (n : Str) : Option Nat :=
  match n.reverse.findIdx? (fun c => c = '.') with
  | none => none
  | some j => some (n.length - 1 - j)

/-- `pathlib.PurePath.stem`: the final component without its last
suffix; CPython keeps the whole name when the last dot is leading or
trailing. -/
def pathStem (s : Str) : Str :=
  let n := pathName s
  match rfindDot n with
  | some i => if 0 < i ∧ i < n.length - 1 then n.take i else n
  | none => n

/-- `pathlib.PurePath.suffix`: the last extension of the final
component including the dot, or empty. -/
def pathSuffix (s : Str) : Str :=
  let n := pathName s
  match rfindDot n with
  | some i => if 0 < i ∧ i < n.length - 1 then n.drop i else []
  | none => []

/-! ## Data model (`core/models.py`) -/

/-- A frontmatter value (`Any` in the source); the code only ever
produces string scalars and lists of strings. -/
inductive Val where
  | vs (s : Str)
  | vl (l : List Str)
deriving DecidableEq

/-- A Python `dict` modelled as an insertion-ordered association list;
keys are unique in every dict the code builds. -/
abbrev FmDict := List (Str × Val)

/-- Python `dict.get`: the binding for a key (last write wins). -/
def dget (d : FmDict) (k : Str) : Option Val :=
  (d.reverse.find? (fun p => p.1 = k)).map (fun p => p.2)

/-- Setting one key as Python `dict.__setitem__`: overwrite in place if
present, else append. -/
def dset (d : FmDict) (k : Str) (v : Val) : FmDict :=
  if d.any (fun p => p.1 = k) then
    d.map (fun p => if p.1 = k then (k, v) else p)
  else d ++ [(k, v)]

/-- Python `dict.update`. -/
def dUpdate (d : FmDict) (add : FmDict) : FmDict :=
  add.foldl (fun acc p => dset acc p.1 p.2) d

/-- `NoteMetadata` from `core/models.py`.  The note body is read lazily
via `context.read_raw()`; the model stores that raw file text directly
in place of the `NoteContext` path. -/
structure NoteMetadata where
  raw : Str
  title : Str
  slug : Str
  frontmatter : FmDict
  tags : List Str
  creationDate : Str
  publicationDate : Str
deriving DecidableEq

/-- `ProcessedNote` from `core/models.py`.  `referenced_images` is a
Python `set`; the model keeps the first-occurrence order of a
deduplicated list (the spec says order is not significant). -/
structure ProcessedNote where
  metadata : NoteMetadata
  content : Str
  frontmatter : FmDict
  tags : List Str
  referencedImages : List Str
  missingLinks : List Str
deriving DecidableEq

/-! ## Link index (`core/processor.py`, `LinkIndex`) -/

/-- String-to-string Python dict (both `LinkIndex` maps). -/
abbrev SDict := List (Str × Str)

/-- Python `dict.get` on a string dict (last write wins, as Python
assignment overwrites). -/
def sget (d : SDict) (k : Str) : Option Str :=
  (d.reverse.find? (fun p => p.1 = k)).map (fun p => p.2)

/-- `LinkIndex`: title→slug and slug→title maps. -/
structure LinkIndex where
  titleToSlug : SDict
  slugToTitle : SDict
deriving DecidableEq

/-- `LinkIndex.from_dict`: lower-case the title keys. -/
def LinkIndex.fromDict (data : SDict) : LinkIndex :=
  { titleToSlug := data.map (fun p => (lowerStr p.1, p.2))
    slugToTitle := data.map (fun p => (p.2, p.1)) }

/-- `LinkIndex.get_slug`: case-insensitive lookup, `None` on a miss. -/
def LinkIndex.getSlug (idx : LinkIndex) (title : Str) : Option Str :=
  sget idx.titleToSlug (lowerStr title)

/-! ## Content processor (`core/processor.py`, `ContentProcessor`) -/

/-- The `ContentProcessor` configuration.  `param` is the external
Identifier Normalizer (`inflection.parameterize`), injected as a pure
function per the design. -/
structure Config where
  idx : LinkIndex
  linkT : Str → Str → Str
  tagT : Option (List Str → List Str) := none
  fmT : Option (FmDict → ProcessedNote → FmDict) := none
  imgPathPfx : Str := str "/images"
  warnMissing : Bool := true
  outExt : Option Str := none
  param : Str → Str

/-- The image-path prefix after the `rstrip('/')` performed in
`ContentProcessor.__init__`. -/
def Config.pfx (cfg : Config) : Str := rstripSlash cfg.imgPathPfx

/-- Leftmost split of `s` on one occurrence of `sep`, as one step of
Python `str.split(sep, maxsplit)`:  `some (before, after)` when `sep`
occurs, scanning left to right. -/
def splitOnce (sep : Str) : Str → Option (Str × Str)
  | [] => if sep.isPrefixOf [] then some ([], []) else none
  | c :: cs =>
    if sep.isPrefixOf (c :: cs) then some ([], (c :: cs).drop sep.length)
    else (splitOnce sep cs).map (fun p => (c :: p.1, p.2))

/-- `ContentProcessor._extract_content`: if the raw text starts with
`---`, split on `---\n` at most twice; with at least two occurrences
the body is everything after the second one, otherwise the whole text
is returned. -/
def extractContent (raw : Str) : Str :=
  if ¬ ((str "---").isPrefixOf raw) then raw
  else
    match splitOnce (str "---\n") raw with
    | none => raw
    | some (_, rest) =>
      match splitOnce (str "---\n") rest with
      | none => raw
      | some (_, rest2) => rest2

/-- The supported image extensions, without dots
(`IMAGE_EMBED_PATTERN`). -/
def imageExts : List Str :=
  [str "png", str "jpg", str "jpeg", str "gif", str "webp", str "svg"]

/-- The dotted extension tuple used by `_process_wikilinks`'s
`target.lower().endswith(ext)` check. -/
def dotExts : List Str :=
  [str ".png", str ".jpg", str ".jpeg", str ".gif", str ".webp", str ".svg"]

/-- `any(target.lower().endswith(ext) for ext in (...))` from
`_process_wikilinks`. -/
def endsImg (target : Str) : Bool :=
  dotExts.any (fun e => e.isSuffixOf (lowerStr target))

/-- Whether a maximal `[^\]|]+` run is matched by the
`IMAGE_EMBED_PATTERN` group `[^\]|]+\.(?:png|jpg|jpeg|gif|webp|svg)`
with `re.IGNORECASE`: it must end in a dotted supported extension with
at least one character before the dot. -/
def isImgEmbedTarget (tgt : Str) : Bool :=
  imageExts.any (fun e =>
    ('.' :: e).isSuffixOf (lowerStr tgt) && decide (e.length + 2 ≤ tgt.length))

/-- The body of `replace_image` in `_process_images`: returns the
rewritten markup together with the image name recorded into the
referenced-image set. -/
def replaceImage (cfg : Config) (imageName : Str) (alt : Option Str) :
    Str × Str :=
  let altText := pyOrS alt (pathStem imageName)
  let stem := pathStem imageName
  let slug := cfg.param stem
  let ext := cfg.outExt.getD (lowerStr (pathSuffix imageName))
  let altSlug := cfg.param altText
  (str "![" ++ altSlug ++ str "](" ++ cfg.pfx ++ str "/" ++ slug ++ ext
     ++ str ")",
   imageName)

/-- The note-target part of a wikilink target:
`target.split("#", 1)[0].strip()` when a `#` is present, else the
target itself. -/
def noteTargetOf (target : Str) : Str :=
  if target.any (fun c => c = '#') then
    pyStrip (target.takeWhile (fun c => c ≠ '#'))
  else target

/-- The section part of a wikilink target: `target.split("#", 1)[1]`
when a `#` is present (not stripped), else empty. -/
def sectionOf (target : Str) : Str :=
  if target.any (fun c => c = '#') then
    (target.dropWhile (fun c => c ≠ '#')).drop 1
  else []

/-- The body of `replace_link` in `_process_wikilinks`: returns the
rewritten markup and the entries appended to `missing_links`. -/
def replaceLink (cfg : Config) (rawTarget : Str) (display : Option Str) :
    Str × List Str :=
  let target := pyStrip rawTarget
  if endsImg target then
    -- image link without the embed marker: same formula as `replace_image`
    let altText := pyOrS display (pathStem target)
    let stem := pathStem target
    let slug := cfg.param stem
    let ext := cfg.outExt.getD (lowerStr (pathSuffix target))
    let altSlug := cfg.param altText
    (str "![" ++ altSlug ++ str "](" ++ cfg.pfx ++ str "/" ++ slug ++ ext
       ++ str ")",
     [])
  else
    let noteTarget := noteTargetOf target
    let sect := sectionOf target
    let res :=
      match cfg.idx.getSlug noteTarget with
      | some s => (s, ([] : List Str))
      | none =>
        (cfg.param noteTarget, if cfg.warnMissing then [noteTarget] else [])
    let linkText := pyOrS display noteTarget
    let rendered := cfg.linkT linkText res.1
    let rendered2 :=
      if sect ≠ [] ∧ rendered.any (fun c => c = ')') then
        rendered.dropLast ++ '#' :: cfg.param sect ++ [')']
      else rendered
    (rendered2, res.2)

/-- One attempted match of `WIKILINK_PATTERN`
(`\[\[([^\]|]+)(?:\|([^\]]+))?\]\]`) at the head of the text: yields
the target, the optional display text and the remaining text.  The
character classes exclude the only closing characters, so the regex
backtracking collapses to maximal-munch runs. -/
def tryWiki : Str → Option (Str × Option Str × Str)
  | '[' :: '[' :: rest =>
    let tgt := rest.takeWhile (fun c => c ≠ ']' && c ≠ '|')
    if tgt = [] then none
    else
      match rest.drop tgt.length with
      | ']' :: ']' :: r => some (tgt, none, r)
      | '|' :: r2 =>
        let disp := r2.takeWhile (fun c => c ≠ ']')
        if disp = [] then none
        else
          match r2.drop disp.length with
          | ']' :: ']' :: r3 => some (tgt, some disp, r3)
          | _ => none
      | _ => none
  | _ => none

/-- One attempted match of `IMAGE_EMBED_PATTERN`
(`!\[\[([^\]|]+\.(?:png|jpg|jpeg|gif|webp|svg))(?:\|([^\]]+))?\]\]`,
case-insensitive) at the head of the text. -/
def tryImg : Str → Option (Str × Option Str × Str)
  | '!' :: '[' :: '[' :: rest =>
    let tgt := rest.takeWhile (fun c => c ≠ ']' && c ≠ '|')
    if isImgEmbedTarget tgt then
      match rest.drop tgt.length with
      | ']' :: ']' :: r => some (tgt, none, r)
      | '|' :: r2 =>
        let disp := r2.takeWhile (fun c => c ≠ ']')
        if disp = [] then none
        else
          match r2.drop disp.length with
          | ']' :: ']' :: r3 => some (tgt, some disp, r3)
          | _ => none
      | _ => none
    else none
  | _ => none

/-- `re.sub` scanning loop of `_process_wikilinks`, with explicit fuel
(one unit per scan position; each step consumes at least one
character, so `s.length` fuel always suffices). -/
def scanWF (cfg : Config) : Nat → Str → Str × List Str
  | _, [] => ([], [])
  | 0, s => (s, [])
  | n + 1, c :: cs =>
    match tryWiki (c :: cs) with
    | some (tgt, disp, r) =>
      let rep := replaceLink cfg tgt disp
      let rest := scanWF cfg n r
      (rep.1 ++ rest.1, rep.2 ++ rest.2)
    | none =>
      let rest := scanWF cfg n cs
      (c :: rest.1, rest.2)

/-- `_process_wikilinks`: returns the rewritten content and the
`missing_links` list. -/
def scanW (cfg : Config) (s : Str) : Str × List Str :=
  scanWF cfg s.length s

/-- `re.sub` scanning loop of `_process_images`, with explicit fuel;
returns the rewritten content and the matched image names in match
order (the source accumulates them into a set). -/
def scanImgF (cfg : Config) : Nat → Str → Str × List Str
  | _, [] => ([], [])
  | 0, s => (s, [])
  | n + 1, c :: cs =>
    match tryImg (c :: cs) with
    | some (tgt, disp, r) =>
      let rep := replaceImage cfg tgt disp
      let rest := scanImgF cfg n r
      (rep.1 ++ rest.1, rep.2 :: rest.2)
    | none =>
      let rest := scanImgF cfg n cs
      (c :: rest.1, rest.2)

/-- `_process_images`. -/
def scanImg (cfg : Config) (s : Str) : Str × List Str :=
  scanImgF cfg s.length s

/-- The list of `WIKILINK_PATTERN` matches of a text in scan order
(specification-side parser used to characterise the substitution). -/
def wikiMatchesF : Nat → Str → List (Str × Option Str)
  | _, [] => []
  | 0, _ => []
  | n + 1, c :: cs =>
    match tryWiki (c :: cs) with
    | some (tgt, disp, r) => (tgt, disp) :: wikiMatchesF n r
    | none => wikiMatchesF n cs

/-- The wikilink matches of a text. -/
def wikiMatches (s : Str) : List (Str × Option Str) :=
  wikiMatchesF s.length s

/-- `ContentProcessor.process`: extract the body, rewrite image embeds
then wikilinks, apply the optional tag and frontmatter transforms. -/
def process (cfg : Config) (note : NoteMetadata) : ProcessedNote :=
  let content0 := extractContent note.raw
  let img := scanImg cfg content0
  let wl := scanW cfg img.1
  let processedTags :=
    match cfg.tagT with
    | some f => f note.tags
    | none => note.tags
  let processed : ProcessedNote :=
    { metadata := note
      content := wl.1
      frontmatter := note.frontmatter
      tags := processedTags
      referencedImages := img.2.dedup
      missingLinks := wl.2 }
  match cfg.fmT with
  | some f => { processed with frontmatter := f note.frontmatter processed }
  | none => processed

/-! ## Output serialisation (`build_output`) -/

/-- Key order for `yaml.dump(..., sort_keys=True)`: code-point
lexicographic comparison of Python strings. -/
def strLe : Str → Str → Bool
  | [], _ => true
  | _ :: _, [] => false
  | a :: as, b :: bs =>
    if a.toNat < b.toNat then true
    else if a.toNat = b.toNat then strLe as bs
    else false

/-- Insertion into a key-sorted association list. -/
def insKey (p : Str × Val) : FmDict → FmDict
  | [] => [p]
  | q :: qs => if strLe p.1 q.1 then p :: q :: qs else q :: insKey p qs

/-- Sorting the mapping items by key. -/
def sortByKey (d : FmDict) : FmDict := d.foldr insKey []

/-- One mapping entry in PyYAML block style: a string scalar renders
as `key: value`, a list of strings as a block sequence. -/
def dumpEntry (p : Str × Val) : Str :=
  match p.2 with
  | .vs v => p.1 ++ str ": " ++ v ++ [ '\n']
  | .vl l => p.1 ++ str ":" ++ [ '\n'] ++ l.flatMap (fun t => str "- " ++ t ++ [ '\n'])

/-- `yaml.dump(mapping, default_flow_style=False, sort_keys=True)`,
modelled for the value shapes the code produces. -/
def yamlDump (d : FmDict) : Str :=
  (sortByKey d).flatMap dumpEntry

/-- `ContentProcessor.build_output`: emit `---`-delimited frontmatter
when the mapping is non-empty, then the body with trailing newlines
stripped plus a final newline. -/
def buildOutput (processed : ProcessedNote) : Str :=
  if processed.frontmatter ≠ [] then
    str "---" ++ [ '\n'] ++ yamlDump processed.frontmatter ++ str "---"
      ++ [ '\n'] ++ rstripNl processed.content ++ [ '\n']
  else rstripNl processed.content ++ [ '\n']

/-! ## Frontmatter transform factories (`transforms/frontmatter.py`) -/

/-- `frontmatter.identity`. -/
def fmIdentity : FmDict → ProcessedNote → FmDict :=
  fun fm _ => fm

/-- `frontmatter.prune_and_add`: keep an allow-list of keys if given,
else drop a deny-list if given, then merge `add_fields`. -/
def pruneAndAdd (keepKeys removeKeys : Option (List Str))
    (addFields : Option FmDict) : FmDict → ProcessedNote → FmDict :=
  fun fm _ =>
    let result :=
      match keepKeys with
      | some ks => fm.filter (fun p => ks.contains p.1)
      | none =>
        match removeKeys with
        | some rs => fm.filter (fun p => ¬ rs.contains p.1)
        | none => fm
    match addFields with
    | some ad => if ad ≠ [] then dUpdate result ad else result
    | none => result

/-- `title.replace(';', ':')` from `hugo_frontmatter` (semicolons in
titles break YAML parsing). -/
def semiFix (s : Str) : Str :=
  s.map (fun c => if c = ';' then ':' else c)

/-- `frontmatter.hugo_frontmatter`; `tc` is the external
`titlecase.titlecase` collaborator, injected as a pure function. -/
def hugoFm (tc : Str → Str) (author : Option Str) :
    FmDict → ProcessedNote → FmDict :=
  fun _ processed =>
    let meta := processed.metadata
    let title := semiFix (tc meta.title)
    let base : FmDict :=
      [(str "title", .vs title),
       (str "date", .vs meta.publicationDate),
       (str "doc", .vs meta.creationDate)]
    let withAuthor :=
      match author with
      | some a => if a = [] then base else base ++ [(str "author", .vs a)]
      | none => base
    if processed.tags ≠ [] then
      withAuthor ++ [(str "tags", .vl processed.tags)]
    else withAuthor

/-! ## Link renderer family.

Modelled from the spec: `transforms/links.py` is not under `src/`
(only its tests and callers are).  Spec 4.3 fixes the three
renderer shapes: relative `[display](identifier.md)`, absolute with
prefix `[display](prefix/identifier)`, and the site-generator inline
reference macro embedding the identifier; the repository's tests pin
the same shapes. -/

/-- Relative link renderer `[display](identifier.md)`. -/
def relativeLink : Str → Str → Str :=
  fun d s => str "[" ++ d ++ str "](" ++ s ++ str ".md)"

/-- Absolute link renderer `[display](prefix/identifier)`. -/
def absoluteLink (pfx : Str) : Str → Str → Str :=
  fun d s => str "[" ++ d ++ str "](" ++ pfx ++ str "/" ++ s ++ str ")"

/-- Hugo named-reference renderer
`[display]({{< ref "identifier" >}})`. -/
def hugoRef : Str → Str → Str :=
  fun d s =>
    str "[" ++ d ++ str "](" ++ str "\x7b\x7b< ref \"" ++ s
      ++ str "\" >\x7d\x7d)"

/-! ## Basic lemmas -/

theorem splitOnce_sound {sep : Str} :
    ∀ {s a b : Str}, splitOnce sep s = some (a, b) → s = a ++ sep ++ b := by
  intro s
  induction s with
  | nil =>
    intro a b h
    simp only [splitOnce] at h
    split at h
    · rename_i hp
      cases h
      have : sep = [] := by
        simpa using List.isPrefixOf_iff_prefix.mp hp
      simp [this]
    · cases h
  | cons c cs ih =>
    intro a b h
    simp only [splitOnce] at h
    split at h
    · rename_i hp
      cases h
      obtain ⟨t, ht⟩ := List.isPrefixOf_iff_prefix.mp hp
      calc c :: cs = sep ++ t := ht.symm
        _ = [] ++ sep ++ (sep ++ t).drop sep.length := by
          simp [List.drop_left]
        _ = [] ++ sep ++ (c :: cs).drop sep.length := by rw [ht]
    · rw [Option.map_eq_some'] at h
      obtain ⟨⟨a', b'⟩, hsp, heq⟩ := h
      cases heq
      simpa using congrArg (fun l => c :: l) (ih hsp)

theorem splitOnce_leftmost {sep b : Str} :
    ∀ (a : Str),
      (∀ i, i < a.length → sep.isPrefixOf ((a ++ sep ++ b).drop i) = false) →
      splitOnce sep (a ++ sep ++ b) = some (a, b) := by
  intro a
  induction a with
  | nil =>
    intro _
    have hp : sep.isPrefixOf (sep ++ b) := by
      exact List.isPrefixOf_iff_prefix.mpr ⟨b, rfl⟩
    cases hsb : sep ++ b with
    | nil =>
      have hsep : sep = [] := by cases sep <;> simp_all
      have hb : b = [] := by simp [hsep] at hsb; exact hsb
      simp [splitOnce, hsep, hb]
    | cons c cs =>
      rw [List.nil_append, hsb]
      rw [hsb] at hp
      simp only [splitOnce, hp, if_pos]
      rw [← hsb, List.drop_left]
  | cons c a' ih =>
    intro h
    have h0 := h 0 (by simp)
    simp only [List.drop_zero] at h0
    have h0' : ¬ sep <+: (c :: (a' ++ (sep ++ b))) := by
      rw [← List.isPrefixOf_iff_prefix]
      simp_all
    have hrec : splitOnce sep (a' ++ sep ++ b) = some (a', b) := by
      apply ih
      intro i hi
      have := h (i + 1) (by simpa using Nat.succ_lt_succ hi)
      simpa using this
    simp only [List.cons_append, List.append_assoc] at hrec ⊢
    rw [splitOnce, if_neg (by simpa using h0')]
    simp [hrec]

theorem tryWiki_length {s t : Str} {d : Option Str} {r : Str}
    (h : tryWiki s = some (t, d, r)) : r.length < s.length := by
  rw [tryWiki.eq_def] at h
  split at h
  · rename_i rest
    dsimp only [] at h
    split at h
    · exact absurd h (by simp)
    · split at h
      · rename_i r' hdrop
        have hlen := congrArg List.length hdrop
        simp [List.length_drop] at hlen
        cases h
        simp
        omega
      · rename_i r2 hdrop
        have hlen2 := congrArg List.length hdrop
        simp [List.length_drop] at hlen2
        split at h
        · exact absurd h (by simp)
        · split at h
          · rename_i r3 hdrop3
            have hlen3 := congrArg List.length hdrop3
            simp [List.length_drop] at hlen3
            cases h
            simp
            omega
          · exact absurd h (by simp)
      · exact absurd h (by simp)
  · exact absurd h (by simp)

theorem tryImg_length {s t : Str} {d : Option Str} {r : Str}
    (h : tryImg s = some (t, d, r)) : r.length < s.length := by
  rw [tryImg.eq_def] at h
  split at h
  · rename_i rest
    dsimp only [] at h
    split at h
    · split at h
      · rename_i r' hdrop
        have hlen := congrArg List.length hdrop
        simp [List.length_drop] at hlen
        cases h
        simp
        omega
      · rename_i r2 hdrop
        have hlen2 := congrArg List.length hdrop
        simp [List.length_drop] at hlen2
        split at h
        · exact absurd h (by simp)
        · split at h
          · rename_i r3 hdrop3
            have hlen3 := congrArg List.length hdrop3
            simp [List.length_drop] at hlen3
            cases h
            simp
            omega
          · exact absurd h (by simp)
      · exact absurd h (by simp)
    · exact absurd h (by simp)
  · exact absurd h (by simp)

theorem scanWF_fuel (cfg : Config) :
    ∀ n m s, s.length ≤ n → s.length ≤ m →
      scanWF cfg n s = scanWF cfg m s := by
  intro n
  induction n with
  | zero =>
    intro m s hn _
    have : s = [] := List.length_eq_zero.mp (Nat.le_zero.mp hn)
    subst this
    cases m <;> rfl
  | succ n ih =>
    intro m s hn hm
    cases s with
    | nil => cases m <;> rfl
    | cons c cs =>
      cases m with
      | zero => simp at hm
      | succ m' =>
        rw [scanWF, scanWF]
        cases htry : tryWiki (c :: cs) with
        | some x =>
          obtain ⟨t, d, r⟩ := x
          have hr : r.length ≤ cs.length := by
            have := tryWiki_length htry
            simp at this
            omega
          simp only []
          rw [ih m' r (by simp at hn; omega) (by simp at hm; omega)]
        | none =>
          simp only []
          rw [ih m' cs (by simp at hn; omega) (by simp at hm; omega)]

theorem scanImgF_fuel (cfg : Config) :
    ∀ n m s, s.length ≤ n → s.length ≤ m →
      scanImgF cfg n s = scanImgF cfg m s := by
  intro n
  induction n with
  | zero =>
    intro m s hn _
    have : s = [] := List.length_eq_zero.mp (Nat.le_zero.mp hn)
    subst this
    cases m <;> rfl
  | succ n ih =>
    intro m s hn hm
    cases s with
    | nil => cases m <;> rfl
    | cons c cs =>
      cases m with
      | zero => simp at hm
      | succ m' =>
        rw [scanImgF, scanImgF]
        cases htry : tryImg (c :: cs) with
        | some x =>
          obtain ⟨t, d, r⟩ := x
          have hr : r.length ≤ cs.length := by
            have := tryImg_length htry
            simp at this
            omega
          simp only []
          rw [ih m' r (by simp at hn; omega) (by simp at hm; omega)]
        | none =>
          simp only []
          rw [ih m' cs (by simp at hn; omega) (by simp at hm; omega)]

theorem wikiMatchesF_fuel :
    ∀ n m s, s.length ≤ n → s.length ≤ m →
      wikiMatchesF n s = wikiMatchesF m s := by
  intro n
  induction n with
  | zero =>
    intro m s hn _
    have : s = [] := List.length_eq_zero.mp (Nat.le_zero.mp hn)
    subst this
    cases m <;> rfl
  | succ n ih =>
    intro m s hn hm
    cases s with
    | nil => cases m <;> rfl
    | cons c cs =>
      cases m with
      | zero => simp at hm
      | succ m' =>
        rw [wikiMatchesF, wikiMatchesF]
        cases htry : tryWiki (c :: cs) with
        | some x =>
          obtain ⟨t, d, r⟩ := x
          have hr : r.length ≤ cs.length := by
            have := tryWiki_length htry
            simp at this
            omega
          simp only []
          rw [ih m' r (by simp at hn; omega) (by simp at hm; omega)]
        | none =>
          simp only []
          rw [ih m' cs (by simp at hn; omega) (by simp at hm; omega)]

/-- Unfolding `scanW` one match step. -/
theorem scanW_match {cfg : Config} {s t : Str} {d : Option Str} {r : Str}
    (h : tryWiki s = some (t, d, r)) :
    scanW cfg s = ((replaceLink cfg t d).1 ++ (scanW cfg r).1,
                   (replaceLink cfg t d).2 ++ (scanW cfg r).2) := by
  have hr := tryWiki_length h
  cases s with
  | nil => simp [tryWiki] at h
  | cons c cs =>
    show scanWF cfg cs.length.succ (c :: cs) = _
    rw [scanWF]
    simp only [h]
    rw [show scanWF cfg cs.length r = scanW cfg r from
      scanWF_fuel cfg _ _ r (by simp at hr; omega) (le_refl _)]

/-- Unfolding `scanW` one skipped character. -/
theorem scanW_skip {cfg : Config} {c : Char} {cs : Str}
    (h : tryWiki (c :: cs) = none) :
    scanW cfg (c :: cs) = (c :: (scanW cfg cs).1, (scanW cfg cs).2) := by
  show scanWF cfg cs.length.succ (c :: cs) = _
  rw [scanWF]
  simp only [h]
  rfl

theorem scanW_nil (cfg : Config) : scanW cfg [] = ([], []) := rfl

/-- Unfolding `wikiMatches` one match step. -/
theorem wikiMatches_match {s t : Str} {d : Option Str} {r : Str}
    (h : tryWiki s = some (t, d, r)) :
    wikiMatches s = (t, d) :: wikiMatches r := by
  have hr := tryWiki_length h
  cases s with
  | nil => simp [tryWiki] at h
  | cons c cs =>
    show wikiMatchesF cs.length.succ (c :: cs) = _
    rw [wikiMatchesF]
    simp only [h]
    rw [show wikiMatchesF cs.length r = wikiMatches r from
      wikiMatchesF_fuel _ _ r (by simp at hr; omega) (le_refl _)]

/-- Unfolding `wikiMatches` one skipped character. -/
theorem wikiMatches_skip {c : Char} {cs : Str}
    (h : tryWiki (c :: cs) = none) :
    wikiMatches (c :: cs) = wikiMatches cs := by
  show wikiMatchesF cs.length.succ (c :: cs) = _
  rw [wikiMatchesF]
  simp only [h]
  rfl

/-- The `missing_links` list produced by the wikilink pass is the
concatenation, in match order, of the per-match contributions. -/
theorem scanW_missing (cfg : Config) :
    ∀ s : Str, (scanW cfg s).2
      = (wikiMatches s).flatMap (fun m => (replaceLink cfg m.1 m.2).2) := by
  suffices h : ∀ (n : Nat) (s : Str), s.length ≤ n →
      (scanW cfg s).2
        = (wikiMatches s).flatMap (fun m => (replaceLink cfg m.1 m.2).2) by
    intro s; exact h s.length s (le_refl _)
  intro n
  induction n with
  | zero =>
    intro s hs
    have : s = [] := List.length_eq_zero.mp (Nat.le_zero.mp hs)
    subst this
    rfl
  | succ n ih =>
    intro s hs
    cases s with
    | nil => rfl
    | cons c cs =>
      cases htry : tryWiki (c :: cs) with
      | some x =>
        obtain ⟨t, d, r⟩ := x
        have hr : r.length ≤ n := by
          have := tryWiki_length htry
          simp at this hs
          omega
        rw [scanW_match htry, wikiMatches_match htry]
        simp only [List.flatMap_cons]
        rw [ih r hr]
      | none =>
        rw [scanW_skip htry, wikiMatches_skip htry]
        exact ih cs (by simp at hs; omega)

/-- Every wikilink match's rewritten markup occurs inside the output of
the wikilink pass. -/
theorem scanW_contains (cfg : Config) :
    ∀ s : Str, ∀ m ∈ wikiMatches s,
      List.IsInfix (replaceLink cfg m.1 m.2).1 (scanW cfg s).1 := by
  suffices h : ∀ (n : Nat) (s : Str), s.length ≤ n → ∀ m ∈ wikiMatches s,
      List.IsInfix (replaceLink cfg m.1 m.2).1 (scanW cfg s).1 by
    intro s; exact h s.length s (le_refl _)
  intro n
  induction n with
  | zero =>
    intro s hs
    have : s = [] := List.length_eq_zero.mp (Nat.le_zero.mp hs)
    subst this
    intro m hm
    cases hm
  | succ n ih =>
    intro s hs m hm
    cases s with
    | nil => cases hm
    | cons c cs =>
      cases htry : tryWiki (c :: cs) with
      | some x =>
        obtain ⟨t, d, r⟩ := x
        have hr : r.length ≤ n := by
          have := tryWiki_length htry
          simp at this hs
          omega
        rw [wikiMatches_match htry] at hm
        rw [scanW_match htry]
        rcases List.mem_cons.mp hm with rfl | hm2
        · exact ⟨[], (scanW cfg r).1, by simp⟩
        · obtain ⟨u, v, huv⟩ := ih r hr m hm2
          exact ⟨(replaceLink cfg t d).1 ++ u, v, by
            simp only [List.append_assoc, huv]⟩
      | none =>
        rw [wikiMatches_skip htry] at hm
        rw [scanW_skip htry]
        obtain ⟨u, v, huv⟩ := ih cs (by simp at hs; omega) m hm
        exact ⟨c :: u, v, by simp [huv]⟩

/-! ## Concrete instances used by witnesses -/

/-- A concrete stand-in for the external Identifier Normalizer used to
instantiate witnesses: lower-case letters and digits, hyphenate the
rest. -/
def simpleSlug (s : Str) : Str :=
  s.map (fun c => if c.isAlpha ∨ c.isDigit then lowerChar c else '-')

/-- A small link index for witnesses. -/
def idxW : LinkIndex :=
  LinkIndex.fromDict
    [(str "First Note", str "first-note"), (str "Second Note", str "second-note")]

/-- A concrete processor configuration for witnesses. -/
def cfgW : Config :=
  { idx := idxW, linkT := relativeLink, param := simpleSlug }

/-- A concrete note with the given raw file text. -/
def noteW (raw : String) : NoteMetadata :=
  { raw := str raw
    title := str "First Note"
    slug := str "first-note"
    frontmatter := []
    tags := []
    creationDate := str "2024-01-01"
    publicationDate := str "2024-01-02" }

/-- A trivial `ProcessedNote` (second argument of frontmatter
transforms that ignore it). -/
def pnDummy : ProcessedNote :=
  { metadata := noteW ""
    content := []
    frontmatter := []
    tags := []
    referencedImages := []
    missingLinks := [] }

/-! ## Claim C6 -/

/-- C6: `_extract_content` is a lenient frontmatter stripper: if the
text does not begin with the delimiter the whole text is the body; if
it does and the separator `---\n` occurs twice (at the stated leftmost
positions), the body is everything after the second occurrence; if no
two occurrences exist, the whole text is the body — never an error. -/
theorem extract_content_cases (raw : Str) :
    ((str "---").isPrefixOf raw = false → extractContent raw = raw)
    ∧ (∀ a b c : Str,
        (str "---").isPrefixOf raw = true →
        raw = a ++ str "---\n" ++ b ++ str "---\n" ++ c →
        (∀ i, i < a.length →
          (str "---\n").isPrefixOf (raw.drop i) = false) →
        (∀ j, j < b.length →
          (str "---\n").isPrefixOf ((b ++ str "---\n" ++ c).drop j) = false) →
        extractContent raw = c)
    ∧ ((str "---").isPrefixOf raw = true →
        (∀ a b c : Str, raw ≠ a ++ str "---\n" ++ b ++ str "---\n" ++ c) →
        extractContent raw = raw) := by
  refine ⟨?_, ?_, ?_⟩
  · intro h
    simp [extractContent, h]
  · intro a b c h1 h2 hA hB
    rw [h2] at hA
    have hsp1 : splitOnce (str "---\n") raw
        = some (a, b ++ str "---\n" ++ c) := by
      rw [h2]
      have hmain := @splitOnce_leftmost (str "---\n")
        (b ++ str "---\n" ++ c) a ?_
      · simpa [List.append_assoc] using hmain
      · intro i hi
        have := hA i hi
        simpa [List.append_assoc] using this
    have hsp2 : splitOnce (str "---\n") (b ++ (str "---\n" ++ c))
        = some (b, c) := by
      have hmain := @splitOnce_leftmost (str "---\n") c b ?_
      · simpa [List.append_assoc] using hmain
      · intro j hj
        have := hB j hj
        simpa [List.append_assoc] using this
    simp [extractContent, h1, hsp1, hsp2]
  · intro h1 hno
    cases e1 : splitOnce (str "---\n") raw with
    | none => simp [extractContent, h1, e1]
    | some p =>
      obtain ⟨a, r⟩ := p
      cases e2 : splitOnce (str "---\n") r with
      | none => simp [extractContent, h1, e1, e2]
      | some q =>
        obtain ⟨b, c⟩ := q
        exfalso
        have hr1 := splitOnce_sound e1
        have hr2 := splitOnce_sound e2
        exact hno a b c (by rw [hr1, hr2]; simp [List.append_assoc])

/-- Witness for C6: a well-formed frontmatter block is stripped; an
unterminated opening delimiter leaves the text untouched. -/
theorem extract_content_cases_witness :
    extractContent (str "---\ntitle: x\n---\nbody") = str "body"
    ∧ extractContent (str "---") = str "---" := by
  constructor
  · exact (extract_content_cases (str "---\ntitle: x\n---\nbody")).2.1
      [] (str "title: x\n") (str "body") (by decide) (by decide)
      (by decide) (by decide)
  · refine (extract_content_cases (str "---")).2.2 (by decide) ?_
    intro a b c h
    have := congrArg List.length h
    simp [str] at this
    omega

/-! ## Claim C4 -/

/-- C4 counterexample: constructing `prune_and_add` with both an
allow-list and a deny-list does NOT fail at construction time — the
factory returns an ordinary transform which runs normally (the
allow-list silently wins), so the claimed fail-fast configuration
error does not exist in the code. -/
theorem prune_both_lists_counterexample :
    pruneAndAdd (some [str "a"]) (some [str "a", str "b"]) none
      [(str "a", .vs (str "1")), (str "b", .vs (str "2"))] pnDummy
      = [(str "a", .vs (str "1"))] := by decide

/-- C4 amended: giving both lists raises no error; the deny-list is
simply ignored (the transform coincides with the allow-list-only one)
and the allow-list filter is applied. -/
theorem prune_both_lists_keep_precedence
    (ks rs : List Str) (add : Option FmDict) (fm : FmDict)
    (pn : ProcessedNote) :
    pruneAndAdd (some ks) (some rs) add fm pn
      = pruneAndAdd (some ks) none add fm pn
    ∧ pruneAndAdd (some ks) (some rs) none fm pn
      = fm.filter (fun p => ks.contains p.1) :=
  ⟨rfl, rfl⟩

/-! ## Claim C9 -/

/-- C9: `process` never replaces or alters the input note's metadata:
the `ProcessedNote` references the very same `NoteMetadata`, so its
title, slug, frontmatter mapping, tag list and date fields are the
input's (the transforms are pure functions of copies in this model,
exactly as the source passes `.copy()` snapshots). -/
theorem process_preserves_metadata (cfg : Config) (note : NoteMetadata) :
    (process cfg note).metadata = note
    ∧ (process cfg note).metadata.title = note.title
    ∧ (process cfg note).metadata.slug = note.slug
    ∧ (process cfg note).metadata.frontmatter = note.frontmatter
    ∧ (process cfg note).metadata.tags = note.tags
    ∧ (process cfg note).metadata.creationDate = note.creationDate
    ∧ (process cfg note).metadata.publicationDate = note.publicationDate := by
  have h : (process cfg note).metadata = note := by
    unfold process
    cases cfg.fmT <;> rfl
  exact ⟨h, by rw [h], by rw [h], by rw [h], by rw [h], by rw [h], by rw [h]⟩

/-! ## Claim C10 -/

/-- C10: the Hugo frontmatter rewriter emits as `title` the title-cased
original with every semicolon replaced by a colon, so the emitted title
never contains a semicolon (`tc` is the external `titlecase`
collaborator). -/
theorem hugo_title_no_semicolon (tc : Str → Str) (author : Option Str)
    (fm : FmDict) (pn : ProcessedNote) :
    dget (hugoFm tc author fm pn) (str "title")
      = some (.vs (semiFix (tc pn.metadata.title)))
    ∧ ∀ c ∈ semiFix (tc pn.metadata.title), c ≠ ';' := by
  constructor
  · have hd : (str "date" = str "title") = False := by simp [str]
    have hdoc : (str "doc" = str "title") = False := by simp [str]
    have hau : (str "author" = str "title") = False := by simp [str]
    have htg : (str "tags" = str "title") = False := by simp [str]
    cases author with
    | none =>
      by_cases ht : pn.tags = [] <;>
        simp [hugoFm, dget, ht, hd, hdoc, htg]
    | some a =>
      by_cases ha : a = [] <;> by_cases ht : pn.tags = [] <;>
        simp [hugoFm, dget, ht, ha, hd, hdoc, hau, htg]
  · intro c hc
    simp only [semiFix, List.mem_map] at hc
    obtain ⟨x, _, hx⟩ := hc
    by_cases h : x = ';'
    · simp [h] at hx
      intro hcon
      rw [hcon] at hx
      exact (by decide : (':' : Char) ≠ ';') hx
    · simp [h] at hx
      rw [← hx]
      exact h

/-! ## Claim C8 -/

/-- C8: `LinkIndex.get_slug` folds the queried title to lower case, so
lookups are case-insensitive (titles equal up to case resolve alike),
and a wikilink whose note-target resolves is rendered with exactly the
index's slug for that title, contributing nothing to the missing-link
list; a miss yields `none` rather than an error. -/
theorem get_slug_resolution :
    (∀ (idx : LinkIndex) (t u : Str), lowerStr t = lowerStr u →
        idx.getSlug t = idx.getSlug u)
    ∧ (∀ (cfg : Config) (rawT : Str) (disp : Option Str) (slug : Str),
        endsImg (pyStrip rawT) = false →
        (pyStrip rawT).any (fun c => c = '#') = false →
        cfg.idx.getSlug (pyStrip rawT) = some slug →
        replaceLink cfg rawT disp
          = (cfg.linkT (pyOrS disp (pyStrip rawT)) slug, [])) := by
  constructor
  · intro idx t u h
    simp [LinkIndex.getSlug, h]
  · intro cfg rawT disp slug h1 h2 h3
    have hnt : noteTargetOf (pyStrip rawT) = pyStrip rawT := by
      simp [noteTargetOf, h2]
    have hsec : sectionOf (pyStrip rawT) = [] := by
      simp [sectionOf, h2]
    simp [replaceLink, h1, hnt, hsec, h3]

/-- Witness for C8: `FIRST note` and its lower-casing resolve alike in
the concrete index, and a resolving wikilink target renders with the
index's slug. -/
theorem get_slug_resolution_witness :
    LinkIndex.getSlug idxW (str "FIRST note")
      = LinkIndex.getSlug idxW (lowerStr (str "FIRST note"))
    ∧ replaceLink cfgW (str "First Note") none
      = (str "[First Note](first-note.md)", []) := by
  constructor
  · exact get_slug_resolution.1 idxW (str "FIRST note")
      (lowerStr (str "FIRST note")) (by decide)
  · rw [get_slug_resolution.2 cfgW (str "First Note") none (str "first-note")
      (by decide) (by decide) (by decide)]
    decide

/-! ## Claim C1 -/

/-- C1 counterexample: `[[diagram.png]]` is rewritten as an image embed
but its target is NOT recorded in the referenced-image set, and
`[[pic.png#sec]]` — whose target carries an image extension once the
section suffix is ignored — is rendered as an ordinary link, not as an
image embed (the code tests the extension on the full target). -/
theorem wikilink_image_counterexample :
    (process cfgW (noteW "See [[diagram.png]]")).referencedImages = []
    ∧ (process cfgW (noteW "See [[diagram.png]]")).content
        = str "See ![diagram](/images/diagram.png)"
    ∧ (process cfgW (noteW "[[pic.png#sec]]")).content
        = str "[pic.png](pic-png.md#sec)" := by
  refine ⟨by decide, by decide, by decide⟩

/-- C1 amended: a wikilink whose full target (after stripping, and
including any `#section` suffix) ends in a supported image extension is
rewritten with exactly the image-embed formula for the same target and
alt text, but contributes nothing to the missing-link list, and the
referenced-image set of a processed note comes solely from the
image-embed pass (`![[...]]` matches), never from the wikilink pass. -/
theorem wikilink_image_amended :
    (∀ (cfg : Config) (rawT : Str) (disp : Option Str),
        endsImg (pyStrip rawT) = true →
        replaceLink cfg rawT disp
          = ((replaceImage cfg (pyStrip rawT) disp).1, []))
    ∧ ∀ (cfg : Config) (note : NoteMetadata),
        (process cfg note).referencedImages
          = (scanImg cfg (extractContent note.raw)).2.dedup := by
  constructor
  · intro cfg rawT disp h
    simp [replaceLink, replaceImage, h]
  · intro cfg note
    unfold process
    cases cfg.fmT <;> rfl

/-- Witness for C1 amended: the marker-less `[[diagram.png]]` target
rewrites with the image-embed formula, and a processed note's
referenced images equal the image-embed pass's matches. -/
theorem wikilink_image_amended_witness :
    replaceLink cfgW (str "diagram.png") none
      = ((replaceImage cfgW (str "diagram.png") none).1, [])
    ∧ (process cfgW (noteW "![[a.png]]")).referencedImages
      = (scanImg cfgW (extractContent (noteW "![[a.png]]").raw)).2.dedup := by
  exact ⟨wikilink_image_amended.1 cfgW (str "diagram.png") none (by decide),
    wikilink_image_amended.2 cfgW (noteW "![[a.png]]")⟩

/-! ## Claim C2 -/

/-- C2 counterexample: a body containing the same unresolved wikilink
twice records the target twice in the missing-links list — it does not
appear exactly once. -/
theorem missing_links_counterexample :
    (process cfgW (noteW "[[X]] [[X]]")).missingLinks = [str "X", str "X"]
    ∧ List.count (str "X")
        (process cfgW (noteW "[[X]] [[X]]")).missingLinks = 2 := by
  refine ⟨by decide, by decide⟩

/-- C2 amended: the missing-links list of a processed note is exactly
the concatenation, in scan order, of the per-match contributions of its
wikilinks, an unresolved non-image wikilink occurrence contributes
exactly one entry (the note-target in its original casing) when
warnings are enabled, and every wikilink match's rewritten markup —
in particular the fallback link built from the normalized target —
appears inside the output content; the pass is total, never an
error. -/
theorem missing_links_amended (cfg : Config) (note : NoteMetadata) :
    (process cfg note).missingLinks
      = (wikiMatches (scanImg cfg (extractContent note.raw)).1).flatMap
          (fun m => (replaceLink cfg m.1 m.2).2)
    ∧ (∀ (rawT : Str) (disp : Option Str),
        endsImg (pyStrip rawT) = false →
        cfg.idx.getSlug (noteTargetOf (pyStrip rawT)) = none →
        cfg.warnMissing = true →
        (replaceLink cfg rawT disp).2 = [noteTargetOf (pyStrip rawT)])
    ∧ ∀ m ∈ wikiMatches (scanImg cfg (extractContent note.raw)).1,
        List.IsInfix (replaceLink cfg m.1 m.2).1
          (process cfg note).content := by
  have hm : (process cfg note).missingLinks
      = (scanW cfg (scanImg cfg (extractContent note.raw)).1).2 := by
    unfold process
    cases cfg.fmT <;> rfl
  have hc : (process cfg note).content
      = (scanW cfg (scanImg cfg (extractContent note.raw)).1).1 := by
    unfold process
    cases cfg.fmT <;> rfl
  refine ⟨?_, ?_, ?_⟩
  · rw [hm, scanW_missing]
  · intro rawT disp h1 h2 h3
    simp [replaceLink, h1, h2, h3]
  · intro m hmem
    rw [hc]
    exact scanW_contains cfg _ m hmem

/-- Witness for C2 amended: for the body `[[X]] [[X]]` with an empty
resolution for `X`, the per-match contribution is the single entry `X`
and the fallback link occurs in the output. -/
theorem missing_links_amended_witness :
    (replaceLink cfgW (str "X") none).2 = [noteTargetOf (pyStrip (str "X"))]
    ∧ List.IsInfix (replaceLink cfgW (str "X") none).1
        (process cfgW (noteW "[[X]] [[X]]")).content := by
  constructor
  · exact (missing_links_amended cfgW (noteW "[[X]] [[X]]")).2.1
      (str "X") none (by decide) (by decide) rfl
  · exact (missing_links_amended cfgW (noteW "[[X]] [[X]]")).2.2
      (str "X", none) (by decide)

/-! ## Claim C5 -/

/-- A concrete note with non-empty frontmatter whose body does not end
in a newline. -/
def noteC5 : NoteMetadata :=
  { raw := str "---\ntitle: x\n---\nhello"
    title := str "First Note"
    slug := str "first-note"
    frontmatter := [(str "title", .vs (str "x"))]
    tags := []
    creationDate := str "2024-01-01"
    publicationDate := str "2024-01-02" }

/-- C5 counterexample: for a processed note with non-empty frontmatter
whose content does not end in a newline, stripping the serialized
output does not give back the content (the serializer normalises the
trailing newline), so serialization is not an exact inverse. -/
theorem roundtrip_counterexample :
    extractContent (buildOutput (process cfgW noteC5))
      ≠ (process cfgW noteC5).content := by decide

/-- C5 amended: for every processed note with non-empty frontmatter
whose dumped frontmatter block contains no stray `---\n` occurrence,
stripping the serializer's output by the rule of the frontmatter
stripper yields the note's content with trailing newlines trimmed to
exactly one — hence exactly the content whenever the content already
ends in exactly one newline. -/
theorem roundtrip_amended (p : ProcessedNote)
    (hfm : p.frontmatter ≠ [])
    (hocc : ∀ i, i < (yamlDump p.frontmatter).length →
      (str "---\n").isPrefixOf
        ((yamlDump p.frontmatter ++ str "---\n"
          ++ (rstripNl p.content ++ [ '\n'])).drop i) = false) :
    extractContent (buildOutput p) = rstripNl p.content ++ [ '\n']
    ∧ (p.content = rstripNl p.content ++ [ '\n'] →
        extractContent (buildOutput p) = p.content) := by
  have hsep : str "---" ++ [ '\n'] = str "---\n" := by decide
  have hout : buildOutput p
      = str "---\n" ++ (yamlDump p.frontmatter
          ++ (str "---\n" ++ (rstripNl p.content ++ [ '\n']))) := by
    simp [buildOutput, hfm, ← hsep, List.append_assoc]
  have hstart : (str "---").isPrefixOf (buildOutput p) = true := by
    rw [hout]
    rw [List.isPrefixOf_iff_prefix]
    exact (by decide : (str "---") <+: (str "---\n")).trans
      (List.prefix_append _ _)
  have hsp1 : splitOnce (str "---\n") (buildOutput p)
      = some ([], yamlDump p.frontmatter
          ++ (str "---\n" ++ (rstripNl p.content ++ [ '\n']))) := by
    rw [hout]
    have hmain := @splitOnce_leftmost (str "---\n")
      (yamlDump p.frontmatter
        ++ (str "---\n" ++ (rstripNl p.content ++ [ '\n']))) []
      (by intro i hi; simp at hi)
    simpa using hmain
  have hsp2 : splitOnce (str "---\n")
      (yamlDump p.frontmatter
        ++ (str "---\n" ++ (rstripNl p.content ++ [ '\n'])))
      = some (yamlDump p.frontmatter, rstripNl p.content ++ [ '\n']) := by
    have hmain := @splitOnce_leftmost (str "---\n")
      (rstripNl p.content ++ [ '\n']) (yamlDump p.frontmatter) ?_
    · simpa [List.append_assoc] using hmain
    · intro i hi
      have := hocc i hi
      simpa [List.append_assoc] using this
  have h1 : extractContent (buildOutput p) = rstripNl p.content ++ [ '\n'] := by
    simp [extractContent, hstart, hsp1, hsp2]
  exact ⟨h1, fun hc => by rw [h1, ← hc]⟩

/-- Witness for C5 amended: a content ending in exactly one newline
round-trips exactly. -/
theorem roundtrip_amended_witness :
    extractContent (buildOutput
      { metadata := noteC5
        content := str "hi\n"
        frontmatter := [(str "a", .vs (str "b"))]
        tags := []
        referencedImages := []
        missingLinks := [] })
    = str "hi\n" := by
  exact (roundtrip_amended
    { metadata := noteC5
      content := str "hi\n"
      frontmatter := [(str "a", .vs (str "b"))]
      tags := []
      referencedImages := []
      missingLinks := [] } (by decide) (by decide)).2 (by decide)

/-! ## Claim C7 -/

/-- The output text ends with exactly one `\n`: the last character is a
newline and the one before it (if any) is not. -/
def oneTrailingNl (s : Str) : Prop :=
  s.getLast? = some '\n' ∧ ¬ s.dropLast.getLast? = some '\n'

instance (s : Str) : Decidable (oneTrailingNl s) := by
  unfold oneTrailingNl
  infer_instance

theorem head?_dropWhile_not {p : Char → Bool} :
    ∀ (l : Str) (a : Char), (l.dropWhile p).head? = some a → p a = false := by
  intro l
  induction l with
  | nil => intro a h; simp [List.dropWhile] at h
  | cons c cs ih =>
    intro a h
    by_cases hp : p c
    · rw [List.dropWhile_cons_of_pos hp] at h
      exact ih a h
    · rw [List.dropWhile_cons_of_neg hp] at h
      simp at h
      rw [← h]
      simpa using hp

theorem rstripNl_last (s : Str) :
    ∀ a, (rstripNl s).getLast? = some a → a ≠ '\n' := by
  intro a h
  rw [rstripNl, List.getLast?_reverse] at h
  have := @head?_dropWhile_not (fun c => c = '\n') s.reverse a h
  simpa using this

theorem oneTrailingNl_concat (B : Str)
    (h : ∀ a, B.getLast? = some a → a ≠ '\n') :
    oneTrailingNl (B ++ [ '\n']) := by
  constructor
  · exact List.getLast?_concat B
  · rw [List.dropLast_concat]
    intro hB
    exact h '\n' hB rfl

theorem strLe_total : ∀ a b : Str, strLe a b = true ∨ strLe b a = true := by
  intro a
  induction a with
  | nil => intro b; left; rfl
  | cons x xs ih =>
    intro b
    cases b with
    | nil => right; rfl
    | cons y ys =>
      by_cases h1 : x.toNat < y.toNat
      · left; simp [strLe, h1]
      · by_cases h2 : x.toNat = y.toNat
        · cases ih ys with
          | inl h => left; simp [strLe, h1, h2, h]
          | inr h =>
            right
            have hny : ¬ y.toNat < x.toNat := by omega
            simp [strLe, hny, h2.symm, h]
        · right
          have h3 : y.toNat < x.toNat := by omega
          simp [strLe, h3]

theorem chain'_insKey (p : Str × Val) :
    ∀ l : FmDict,
      List.Chain' (fun q r => strLe q.1 r.1 = true) l →
      List.Chain' (fun q r => strLe q.1 r.1 = true) (insKey p l) := by
  intro l
  induction l with
  | nil => intro _; simp [insKey]
  | cons q qs ih =>
    intro h
    rw [insKey]
    by_cases hpq : strLe p.1 q.1 = true
    · rw [if_pos hpq]
      exact List.Chain'.cons hpq h
    · rw [if_neg hpq]
      have hqp : strLe q.1 p.1 = true :=
        (strLe_total p.1 q.1).resolve_left hpq
      have hins := ih (List.Chain'.tail h)
      rw [List.chain'_cons']
      refine ⟨?_, hins⟩
      intro b hb
      cases qs with
      | nil =>
        simp [insKey] at hb
        rw [← hb]
        exact hqp
      | cons r rs =>
        rw [insKey] at hb
        by_cases hpr : strLe p.1 r.1 = true
        · rw [if_pos hpr] at hb
          simp at hb
          rw [← hb]
          exact hqp
        · rw [if_neg hpr] at hb
          simp at hb
          rw [← hb]
          exact (List.chain'_cons.mp h).1

theorem insKey_perm (p : Str × Val) :
    ∀ l : FmDict, List.Perm (insKey p l) (p :: l) := by
  intro l
  induction l with
  | nil => simp [insKey]
  | cons q qs ih =>
    rw [insKey]
    by_cases hpq : strLe p.1 q.1 = true
    · rw [if_pos hpq]
    · rw [if_neg hpq]
      exact (List.Perm.cons q ih).trans (List.Perm.swap p q qs)

theorem sortByKey_chain (d : FmDict) :
    List.Chain' (fun q r => strLe q.1 r.1 = true) (sortByKey d) := by
  induction d with
  | nil => simp [sortByKey]
  | cons p ds ih => exact chain'_insKey p (sortByKey ds) ih

theorem sortByKey_perm (d : FmDict) : List.Perm (sortByKey d) d := by
  induction d with
  | nil => simp [sortByKey]
  | cons p ds ih =>
    exact (insKey_perm p (sortByKey ds)).trans (List.Perm.cons p ih)

/-- A processed document with non-empty frontmatter and a body that is
all trailing whitespace. -/
def pnC7 : ProcessedNote :=
  { metadata := noteW ""
    content := []
    frontmatter := [(str "a", .vs (str "b"))]
    tags := []
    referencedImages := []
    missingLinks := [] }

/-- C7 counterexample: with non-empty frontmatter and an empty (or
all-newline) body, the serializer output ends in TWO newlines — the
closing delimiter's and the appended one — not exactly one. -/
theorem build_output_counterexample :
    buildOutput pnC7 = str "---\na: b\n---\n\n"
    ∧ ¬ oneTrailingNl (buildOutput pnC7) := by
  refine ⟨by decide, by decide⟩

/-- C7 amended: with empty resolved frontmatter the serializer emits
the trimmed body alone followed by one newline (no block markers) and
the output ends in exactly one newline; with non-empty frontmatter it
emits the delimited block — entries sorted by key, and exactly the
mapping's entries — followed by the trimmed body and one newline, and
the output ends in exactly one trailing newline provided the trimmed
body is non-empty (an empty body leaves the closing delimiter's newline
before the final one). -/
theorem build_output_amended (p : ProcessedNote) :
    (p.frontmatter = [] →
      buildOutput p = rstripNl p.content ++ [ '\n']
      ∧ oneTrailingNl (buildOutput p))
    ∧ (p.frontmatter ≠ [] →
      buildOutput p = str "---\n" ++ yamlDump p.frontmatter
          ++ str "---\n" ++ rstripNl p.content ++ [ '\n']
      ∧ List.Chain' (fun q r => strLe q.1 r.1 = true)
          (sortByKey p.frontmatter)
      ∧ List.Perm (sortByKey p.frontmatter) p.frontmatter
      ∧ (rstripNl p.content ≠ [] → oneTrailingNl (buildOutput p))) := by
  have hsep : str "---" ++ [ '\n'] = str "---\n" := by decide
  constructor
  · intro hfm
    have he : buildOutput p = rstripNl p.content ++ [ '\n'] := by
      simp [buildOutput, hfm]
    exact ⟨he, he ▸ oneTrailingNl_concat _ (rstripNl_last p.content)⟩
  · intro hfm
    have he : buildOutput p = str "---\n" ++ yamlDump p.frontmatter
        ++ str "---\n" ++ rstripNl p.content ++ [ '\n'] := by
      simp [buildOutput, hfm, ← hsep, List.append_assoc]
    refine ⟨he, sortByKey_chain p.frontmatter, sortByKey_perm p.frontmatter, ?_⟩
    intro hB
    rw [he]
    have hre : str "---\n" ++ yamlDump p.frontmatter
        ++ str "---\n" ++ rstripNl p.content ++ [ '\n']
        = (str "---\n" ++ yamlDump p.frontmatter
          ++ str "---\n" ++ rstripNl p.content) ++ [ '\n'] := by
      simp [List.append_assoc]
    rw [hre]
    apply oneTrailingNl_concat
    intro a ha
    have hlast : (str "---\n" ++ yamlDump p.frontmatter
        ++ str "---\n" ++ rstripNl p.content).getLast?
        = (rstripNl p.content).getLast? := by
      rw [List.append_assoc, List.append_assoc,
        List.getLast?_append_of_ne_nil _ (by simp [hB])]
      rw [List.getLast?_append_of_ne_nil _ (by simp [hB])]
      rw [List.getLast?_append_of_ne_nil _ hB]
    rw [hlast] at ha
    exact rstripNl_last p.content a ha

/-- A processed document with non-empty frontmatter and a body ending
in one newline. -/
def pnC5w : ProcessedNote :=
  { metadata := noteW ""
    content := str "hi\n"
    frontmatter := [(str "b", .vs (str "2")), (str "a", .vs (str "1"))]
    tags := []
    referencedImages := []
    missingLinks := [] }

/-- Witness for C7 amended: both sides instantiated — an empty mapping
emits the body alone, and a non-empty mapping emits the sorted block
with a single trailing newline. -/
theorem build_output_amended_witness :
    buildOutput pnDummy = rstripNl pnDummy.content ++ [ '\n']
    ∧ buildOutput pnC5w = str "---\n" ++ yamlDump pnC5w.frontmatter
        ++ str "---\n" ++ rstripNl pnC5w.content ++ [ '\n']
    ∧ oneTrailingNl (buildOutput pnC5w) := by
  refine ⟨((build_output_amended pnDummy).1 (by decide)).1, ?_, ?_⟩
  · exact ((build_output_amended pnC5w).2 (by decide)).1
  · exact ((build_output_amended pnC5w).2 (by decide)).2.2.2 (by decide)

/-! ## Claim C3 -/

theorem takeWhile_append_stop {p : Char → Bool} :
    ∀ (t rest : Str) (c : Char), (∀ x ∈ t, p x = true) → p c = false →
      (t ++ c :: rest).takeWhile p = t
      ∧ (t ++ c :: rest).dropWhile p = c :: rest := by
  intro t
  induction t with
  | nil =>
    intro rest c _ hc
    simp [List.takeWhile_cons, List.dropWhile_cons, hc]
  | cons x xs ih =>
    intro rest c h hc
    have hx : p x = true := h x (by simp)
    have hrec := ih rest c (fun y hy => h y (by simp [hy])) hc
    simp [List.takeWhile_cons, List.dropWhile_cons, hx, hrec.1, hrec.2]

/-- `replace_link` on a sectioned target whose note part resolves:
the renderer output, assumed to end in a closing parenthesis, gets the
normalized fragment inserted right before that parenthesis. -/
theorem replaceLink_section (cfg : Config) (t sec slug B : Str)
    (h1 : endsImg (t ++ '#' :: sec) = false)
    (h2 : '#' ∉ t)
    (h3 : pyStrip (t ++ '#' :: sec) = t ++ '#' :: sec)
    (h4 : pyStrip t = t)
    (h5 : cfg.idx.getSlug t = some slug)
    (h6 : sec ≠ [])
    (hB : cfg.linkT t slug = B ++ [')']) :
    (replaceLink cfg (t ++ '#' :: sec) none).1
      = B ++ '#' :: cfg.param sec ++ [')'] := by
  have hmem : (t ++ '#' :: sec).any (fun c => c = '#') = true := by simp
  have hall : ∀ x ∈ t, (fun c => decide (c ≠ '#')) x = true := by
    intro x hx
    simp only [decide_eq_true_iff]
    intro he
    exact h2 (he ▸ hx)
  have hstop := takeWhile_append_stop t sec '#' hall (by simp)
  have hnt : noteTargetOf (t ++ '#' :: sec) = t := by
    simp only [noteTargetOf, hmem, if_true]
    rw [show (fun c => decide ¬c = '#') = (fun c => decide (c ≠ '#'))
      from rfl, hstop.1, h4]
  have hsec2 : sectionOf (t ++ '#' :: sec) = sec := by
    simp only [sectionOf, hmem, if_true]
    rw [show (fun c => decide ¬c = '#') = (fun c => decide (c ≠ '#'))
      from rfl, hstop.2]
    simp
  simp only [replaceLink, h3]
  rw [if_neg (by rw [h1]; simp)]
  simp only [pyOrS, hnt, hsec2, h5, hB]
  rw [if_pos ⟨h6, by simp⟩, List.dropLast_concat]

/-- C3: for each configured link renderer (relative, absolute-prefix,
Hugo reference — modelled from the spec, `transforms/links.py` not
being part of the sources), a wikilink `[[t#sec]]` whose note part
resolves renders as the renderer's own markup with the normalized
fragment inserted at that renderer's closing position, so the rendered
link carries both the resolved identifier and the normalized
fragment. -/
theorem section_anchor_correct
    (idx : LinkIndex) (param : Str → Str) (warn : Bool)
    (outExt : Option Str) (imgP apfx : Str) (t sec slug : Str)
    (h1 : endsImg (t ++ '#' :: sec) = false)
    (h2 : '#' ∉ t)
    (h3 : pyStrip (t ++ '#' :: sec) = t ++ '#' :: sec)
    (h4 : pyStrip t = t)
    (h5 : idx.getSlug t = some slug)
    (h6 : sec ≠ []) :
    (replaceLink
        { idx := idx, linkT := relativeLink, param := param,
          warnMissing := warn, outExt := outExt, imgPathPfx := imgP }
        (t ++ '#' :: sec) none).1
      = str "[" ++ t ++ str "](" ++ slug ++ str ".md"
          ++ '#' :: param sec ++ [')']
    ∧ (replaceLink
        { idx := idx, linkT := absoluteLink apfx, param := param,
          warnMissing := warn, outExt := outExt, imgPathPfx := imgP }
        (t ++ '#' :: sec) none).1
      = str "[" ++ t ++ str "](" ++ apfx ++ str "/" ++ slug
          ++ '#' :: param sec ++ [')']
    ∧ (replaceLink
        { idx := idx, linkT := hugoRef, param := param,
          warnMissing := warn, outExt := outExt, imgPathPfx := imgP }
        (t ++ '#' :: sec) none).1
      = str "[" ++ t ++ str "](" ++ str "\x7b\x7b< ref \"" ++ slug
          ++ str "\" >\x7d\x7d" ++ '#' :: param sec ++ [')'] := by
  refine ⟨?_, ?_, ?_⟩
  · have hB : relativeLink t slug
        = (str "[" ++ t ++ str "](" ++ slug ++ str ".md") ++ [')'] := by
      simp [relativeLink, List.append_assoc,
        show str ".md)" = str ".md" ++ [')'] from by decide]
    rw [replaceLink_section _ t sec slug _ h1 h2 h3 h4 h5 h6 hB]
  · have hB : absoluteLink apfx t slug
        = (str "[" ++ t ++ str "](" ++ apfx ++ str "/" ++ slug) ++ [')'] := by
      simp [absoluteLink, List.append_assoc,
        show str ")" = [')'] from by decide]
    rw [replaceLink_section _ t sec slug _ h1 h2 h3 h4 h5 h6 hB]
  · have hB : hugoRef t slug
        = (str "[" ++ t ++ str "](" ++ str "\x7b\x7b< ref \"" ++ slug
            ++ str "\" >\x7d\x7d") ++ [')'] := by
      simp [hugoRef, List.append_assoc,
        show str "\" >\x7d\x7d)" = str "\" >\x7d\x7d" ++ [')']
          from by decide]
    rw [replaceLink_section _ t sec slug _ h1 h2 h3 h4 h5 h6 hB]

/-- Witness for C3: `[[First Note#Intro]]` under the concrete index
renders with both the resolved identifier and the `#intro` fragment in
each renderer. -/
theorem section_anchor_correct_witness :
    (replaceLink
        { idx := idxW, linkT := relativeLink, param := simpleSlug,
          warnMissing := true, outExt := none, imgPathPfx := str "/images" }
        (str "First Note" ++ '#' :: str "Intro") none).1
      = str "[First Note](first-note.md#intro)"
    ∧ (replaceLink
        { idx := idxW, linkT := absoluteLink (str "/posts"),
          param := simpleSlug, warnMissing := true, outExt := none,
          imgPathPfx := str "/images" }
        (str "First Note" ++ '#' :: str "Intro") none).1
      = str "[First Note](/posts/first-note#intro)"
    ∧ (replaceLink
        { idx := idxW, linkT := hugoRef, param := simpleSlug,
          warnMissing := true, outExt := none, imgPathPfx := str "/images" }
        (str "First Note" ++ '#' :: str "Intro") none).1
      = str "[First Note](\x7b\x7b< ref \"first-note\" >\x7d\x7d#intro)" := by
  have h := section_anchor_correct idxW simpleSlug true none
    (str "/images") (str "/posts") (str "First Note") (str "Intro")
    (str "first-note") (by decide) (by decide) (by decide) (by decide)
    (by decide) (by decide)
  refine ⟨?_, ?_, ?_⟩
  · rw [h.1]; decide
  · rw [h.2.1]; decide
  · rw [h.2.2]; decide

end ObsidianPub
